import Mathlib

set_option maxHeartbeats 1000000

/- Shallow embedding of src/python-scoring/transforms_for_dot_prods.py.

   A matrix is a total function Fin n -> Fin m -> Real: row i is item i, column j is
   affiliation j.  The scipy sparse representation and the numpy dense representation
   of one logical matrix hold the same entries but run different code branches, so a
   transform that branches on sparse.isspmatrix is embedded twice, with suffixes
   _sparse and _dense, one definition per code branch.

   IEEE special values: entries are modelled as exact reals.  Where the numpy code can
   produce NaN or Inf -- division by a zero row norm on the dense cosine branch, and
   the shared_weight11 column weight sqrt(log(1/pi)) when pi = 0 (log of Inf) or when
   pi lies outside (0, 1] (sqrt or log of a negative number) -- the embedding uses
   Option Real: some r is a finite double, none is a non-finite double (NaN or Inf).
   Representation formats (CSR, COO, dense) are tracked by the small type MatRep where
   a claim speaks about them. -/

abbrev Mat (n m : ℕ) := Fin n → Fin m → ℝ

abbrev OMat (n m : ℕ) := Fin n → Fin m → Option ℝ

/-- Representation format of a scipy or numpy matrix, as far as the claims need it. -/
inductive MatRep where
  | csr : MatRep
  | coo : MatRep
  | dense : MatRep

/-- Lines 13 to 15 of wc_transform: copy pi_vector and overwrite the entries equal to
0 or to 1 with 0.5, so that the denominator stays finite while the numerator provides
the 0. -/
noncomputable def pi_for_denom {m : ℕ} (piv : Fin m → ℝ) : Fin m → ℝ :=
  fun j => if piv j = 0 ∨ piv j = 1 then 1 / 2 else piv j

/-- The column denominator of wc_transform:
np.sqrt(pi_for_denom * (1 - pi_for_denom) * adj_matrix.shape1). -/
noncomputable def wcDenom {m : ℕ} (piv : Fin m → ℝ) (j : Fin m) : ℝ :=
  Real.sqrt (pi_for_denom piv j * (1 - pi_for_denom piv j) * (m : ℝ))

/-- wc_transform: (adj_matrix - pi_vector) / wcDenom, entrywise.  Subtracting the
broadcast row vector densifies, so the source has a single code path. -/
noncomputable def wc_transform {n m : ℕ} (A : Mat n m) (piv : Fin m → ℝ) : Mat n m :=
  fun i j => (A i j - piv j) / wcDenom piv j

/-- affil_counts = np.maximum(num_docs * pi_vector, 2), shared by newman_transform and
adamic_adar_transform. -/
noncomputable def affil_counts {m : ℕ} (num_docs : ℝ) (piv : Fin m → ℝ) (j : Fin m) : ℝ :=
  max (num_docs * piv j) 2

/-- Sparse branch of newman_transform:
adj_matrix.multiply(1 / np.sqrt(affil_counts - 1)).tocsr().  The scipy multiply scales
every stored entry of column j by the finite scalar 1 / sqrt(affil_counts j - 1). -/
noncomputable def newman_transform_sparse {n m : ℕ} (A : Mat n m) (piv : Fin m → ℝ)
    (num_docs : ℝ) : Mat n m :=
  fun i j => A i j * (1 / Real.sqrt (affil_counts num_docs piv j - 1))

/-- Dense branch of newman_transform: adj_matrix / np.sqrt(affil_counts - 1). -/
noncomputable def newman_transform_dense {n m : ℕ} (A : Mat n m) (piv : Fin m → ℝ)
    (num_docs : ℝ) : Mat n m :=
  fun i j => A i j / Real.sqrt (affil_counts num_docs piv j - 1)

/-- Sparse branch of adamic_adar_transform:
adj_matrix.multiply(1 / np.sqrt(np.log(affil_counts))).tocsr(). -/
noncomputable def adamic_adar_transform_sparse {n m : ℕ} (A : Mat n m) (piv : Fin m → ℝ)
    (num_docs : ℝ) : Mat n m :=
  fun i j => A i j * (1 / Real.sqrt (Real.log (affil_counts num_docs piv j)))

/-- Dense branch of adamic_adar_transform: adj_matrix / np.sqrt(np.log(affil_counts)). -/
noncomputable def adamic_adar_transform_dense {n m : ℕ} (A : Mat n m) (piv : Fin m → ℝ)
    (num_docs : ℝ) : Mat n m :=
  fun i j => A i j / Real.sqrt (Real.log (affil_counts num_docs piv j))

/-- Sparse branch of shared_size_transform: the input itself when back_compat, else
adj_matrix.multiply(1 / np.sqrt(adj_matrix.shape1)). -/
noncomputable def shared_size_transform_sparse {n m : ℕ} (A : Mat n m)
    (back_compat : Bool) : Mat n m :=
  if back_compat then A else fun i j => A i j * (1 / Real.sqrt (m : ℝ))

/-- Dense branch of shared_size_transform: the input itself when back_compat, else
adj_matrix / np.sqrt(adj_matrix.shape1). -/
noncomputable def shared_size_transform_dense {n m : ℕ} (A : Mat n m)
    (back_compat : Bool) : Mat n m :=
  if back_compat then A else fun i j => A i j / Real.sqrt (m : ℝ)

/-- The column weight np.sqrt(np.log(1 / pi_vector)) of shared_weight11_transform, as
a double: with 0 < pi and pi <= 1 the weight is the finite real sqrt(log(1/pi)); with
pi = 0 numpy gives 1/0 = Inf, log Inf = Inf, sqrt Inf = Inf; with pi < 0 it gives
log of a negative number = NaN; with pi > 1 it gives sqrt of a negative number = NaN.
All three non-finite outcomes are modelled as none. -/
noncomputable def sw11_weight (p : ℝ) : Option ℝ :=
  if 0 < p ∧ p ≤ 1 then some (Real.sqrt (Real.log (1 / p))) else none

/-- Sparse branch of shared_weight11_transform:
adj_matrix.multiply(np.sqrt(np.log(1 / pi_vector))).tocsr().  The scipy multiply only
touches stored entries, so a structural zero stays an exact zero even when the column
weight is non-finite; a stored entry times a non-finite weight is non-finite. -/
noncomputable def shared_weight11_transform_sparse {n m : ℕ} (A : Mat n m)
    (piv : Fin m → ℝ) : OMat n m :=
  fun i j =>
    if A i j = 0 then some 0 else (sw11_weight (piv j)).map (fun w => A i j * w)

/-- Dense branch of shared_weight11_transform:
adj_matrix * np.sqrt(np.log(1 / pi_vector)).  Every entry of column j is multiplied by
the weight; when the weight is non-finite the numpy product is NaN or Inf for every
entry of the column (0 * Inf = NaN, x * NaN = NaN, x * Inf = Inf), modelled none. -/
noncomputable def shared_weight11_transform_dense {n m : ℕ} (A : Mat n m)
    (piv : Fin m → ℝ) : OMat n m :=
  fun i j => (sw11_weight (piv j)).map (fun w => A i j * w)

/-- Output representation of shared_weight11_transform: a sparse input is cast tocsr()
after the multiply (which by default would return COO); a dense input stays dense. -/
def shared_weight11_rep : MatRep → MatRep
  | MatRep.dense => MatRep.dense
  | _ => MatRep.csr

/-- The Euclidean row norm used by cosine_transform: on the sparse branch
np.sqrt(adj_matrix.power(2).sum(axis=1)), on the dense branch
np.sqrt((adj_matrix * adj_matrix).sum(axis=1)).  Both are sqrt of the row sum of
squares. -/
noncomputable def rowNorm {n m : ℕ} (A : Mat n m) (i : Fin n) : ℝ :=
  Real.sqrt (∑ j, (A i j) ^ 2)

/-- Sparse branch of cosine_transform: row_norms = 1 / np.sqrt(sum of squares); the
entries that are Inf (exactly the rows whose sum of squares is 0) are overwritten with
0; each row is then scaled by its entry via a diagonal matrix on the left. -/
noncomputable def cosine_transform_sparse {n m : ℕ} (A : Mat n m) : Mat n m :=
  fun i j => (if rowNorm A i = 0 then 0 else 1 / rowNorm A i) * A i j

/-- Dense branch of cosine_transform: row_norms = np.sqrt(sum of squares), which is
never Inf for finite input, so the isinf overwrite on line 87 of the source never
fires; the matrix is then divided rowwise by row_norms.  For a row of norm 0 numpy
computes 0/0 = NaN in every entry of the row (the entries of such a row are all 0),
modelled none; rows of nonzero norm divide entrywise as finite reals. -/
noncomputable def cosine_transform_dense {n m : ℕ} (A : Mat n m) : OMat n m :=
  fun i j => if rowNorm A i = 0 then none else some (A i j / rowNorm A i)

/-- Sparse branch of cosine_weights_transform: adj_matrix.multiply(weights).tocsr()
followed by the sparse cosine branch (the intermediate stays sparse). -/
noncomputable def cosine_weights_transform_sparse {n m : ℕ} (A : Mat n m)
    (w : Fin m → ℝ) : Mat n m :=
  cosine_transform_sparse (fun i j => A i j * w j)

/-- Dense branch of cosine_weights_transform: adj_matrix * weights followed by the
dense cosine branch. -/
noncomputable def cosine_weights_transform_dense {n m : ℕ} (A : Mat n m)
    (w : Fin m → ℝ) : OMat n m :=
  cosine_transform_dense (fun i j => A i j * w j)

/-- Row mean of a matrix, sum of the row over the number of columns. -/
noncomputable def rowMean {n m : ℕ} (A : Mat n m) (i : Fin n) : ℝ :=
  (∑ j, A i j) / (m : ℝ)

/-- Population standard deviation of a row, as computed by
sklearn.preprocessing.scale on the transposed matrix with axis 0: the square root of
the mean squared deviation from the row mean (ddof = 0). -/
noncomputable def rowStd {n m : ℕ} (A : Mat n m) (i : Fin n) : ℝ :=
  Real.sqrt ((∑ j, (A i j - rowMean A i) ^ 2) / (m : ℝ))

/-- The divisor sklearn actually uses: its helper handling zeros in scale replaces a
standard deviation equal to 0 by 1, so constant rows are left unchanged rather than
divided by zero. -/
noncomputable def stdSub {n m : ℕ} (A : Mat n m) (i : Fin n) : ℝ :=
  if rowStd A i = 0 then 1 else rowStd A i

/-- adj_stdev_1 of pearson_transform: each row divided by its (zero-guarded)
population standard deviation, i.e. scale(..., with_mean=False, with_std=True). -/
noncomputable def scaledRow {n m : ℕ} (A : Mat n m) : Mat n m :=
  fun i j => A i j / stdSub A i

/-- pearson_transform: scale rows to standard deviation 1, subtract the row means of
the scaled matrix, divide by np.sqrt(adj_matrix.shape1). -/
noncomputable def pearson_transform {n m : ℕ} (A : Mat n m) : Mat n m :=
  fun i j => (scaledRow A i j - (∑ j2, scaledRow A i j2) / (m : ℝ)) / Real.sqrt (m : ℝ)

/-- Output representation of pearson_transform: subtracting the dense row means
densifies on both branches; the source comment reads "Resulting matrix has to be
dense". -/
def pearson_rep : MatRep → MatRep := fun _ => MatRep.dense

/-- The dot-product scorer restricted to one pair: the (i, k) entry of M times its
transpose, i.e. the inner product of rows i and k. -/
noncomputable def dotProd {n m : ℕ} (B : Mat n m) (i k : Fin n) : ℝ :=
  ∑ j, B i j * B k j

/-- The dot-product scorer on matrices that may hold non-finite doubles: if every
entry of the two rows is finite the score is the real inner product; if any factor is
non-finite the IEEE sum of products is NaN or Inf, modelled none. -/
noncomputable def dotProdOpt {n m : ℕ} (B : OMat n m) (i k : Fin n) : Option ℝ :=
  if ∀ j, (B i j).isSome ∧ (B k j).isSome then
    some (∑ j, (B i j).getD 0 * (B k j).getD 0)
  else none

/-- Modelled from the spec: the term-based reference scorer for weighted correlation
(the wc_terms path of the scoring_methods module, which is not under src).  Spec
section 4.2: standardize each column by (x - pi_j) / sqrt(pi_j (1 - pi_j) m) with the
identical 0/1-to-0.5 substitution in the denominator, and sum the per-affiliation
products of standardized deviations. -/
noncomputable def wc_term_score {n m : ℕ} (A : Mat n m) (piv : Fin m → ℝ)
    (i k : Fin n) : ℝ :=
  ∑ j, (A i j - piv j) * (A k j - piv j) /
    (pi_for_denom piv j * (1 - pi_for_denom piv j) * (m : ℝ))

/-- Modelled from the spec: the term-based reference scorer for the Newman metric,
summing x_ij x_kj / (affil_counts j - 1) per affiliation (spec section 4.2, divide
column j by sqrt(affil_count_j - 1)). -/
noncomputable def newman_term_score {n m : ℕ} (A : Mat n m) (piv : Fin m → ℝ)
    (num_docs : ℝ) (i k : Fin n) : ℝ :=
  ∑ j, A i j * A k j / (affil_counts num_docs piv j - 1)

/-- Modelled from the spec: the term-based reference scorer for Adamic-Adar, summing
x_ij x_kj / log(affil_counts j) per affiliation. -/
noncomputable def adamic_adar_term_score {n m : ℕ} (A : Mat n m) (piv : Fin m → ℝ)
    (num_docs : ℝ) (i k : Fin n) : ℝ :=
  ∑ j, A i j * A k j / Real.log (affil_counts num_docs piv j)

/-- Modelled from the spec: the term-based reference scorer for shared size, the raw
shared-affiliation count in back-compatible mode (spec section 8, raw dot product of
unmodified rows) and the count divided by the number of columns otherwise. -/
noncomputable def shared_size_term_score {n m : ℕ} (A : Mat n m) (back_compat : Bool)
    (i k : Fin n) : ℝ :=
  if back_compat then ∑ j, A i j * A k j else ∑ j, A i j * A k j / (m : ℝ)

/-- Modelled from the spec: the term-based reference scorer for shared weight 11,
summing x_ij x_kj log(1 / pi_j) per affiliation (spec section 4.2, multiply column j
by sqrt(log(1/pi_j))). -/
noncomputable def shared_weight11_term_score {n m : ℕ} (A : Mat n m) (piv : Fin m → ℝ)
    (i k : Fin n) : ℝ :=
  ∑ j, A i j * A k j * Real.log (1 / piv j)

/-- Modelled from the spec: the term-based reference value of cosine similarity, the
inner product of the two raw rows over the product of their Euclidean norms (spec
section 8 end-to-end scenario). -/
noncomputable def cosine_term_score {n m : ℕ} (A : Mat n m) (i k : Fin n) : ℝ :=
  (∑ j, A i j * A k j) / (rowNorm A i * rowNorm A k)

/-- Modelled from the spec: the term-based reference value of the Pearson metric, the
sum of products of deviations from the row means over (std_i std_k m), with the same
zero-variance guard on the standard deviations as the scale step (spec section 4.2,
clamp rather than produce Inf). -/
noncomputable def pearson_term_score {n m : ℕ} (A : Mat n m) (i k : Fin n) : ℝ :=
  ∑ j, (A i j - rowMean A i) * (A k j - rowMean A k) /
    (stdSub A i * stdSub A k * (m : ℝ))

/- Concrete inputs used by the closed evaluation theorems. -/

/-- The 3 by 4 binary matrix of the end-to-end cosine scenario in spec section 8. -/
noncomputable def exCos : Mat 3 4 := ![![1, 1, 0, 0], ![1, 0, 1, 0], ![0, 0, 0, 1]]

/-- A 2 by 2 matrix whose first row is all zeros. -/
noncomputable def exZR : Mat 2 2 := ![![0, 0], ![1, 1]]

/-- A 2 by 2 matrix with unit rows, every row norm nonzero. -/
noncomputable def exW : Mat 2 2 := ![![1, 0], ![0, 1]]

/-- A popularity vector with both entries one half. -/
noncomputable def exPiv : Fin 2 → ℝ := ![1 / 2, 1 / 2]

/-- The all-ones weight vector of length two. -/
noncomputable def exOnes : Fin 2 → ℝ := ![1, 1]

/-- The 1 by 1 matrix holding a single 1. -/
noncomputable def exOne : Mat 1 1 := ![![1]]

/-- The 1 by 1 matrix holding a single 0. -/
noncomputable def exZero1 : Mat 1 1 := ![![0]]

/-- The popularity vector of length one holding 0. -/
noncomputable def exPiZero : Fin 1 → ℝ := ![0]

/-- A 1 by 2 matrix with a constant row, hence zero row variance. -/
noncomputable def exConst : Mat 1 2 := ![![1, 1]]

/-- The two binary rows of the shared-size scenario in spec section 8. -/
noncomputable def exSS : Mat 2 4 := ![![1, 1, 0, 0], ![1, 0, 1, 0]]

/- Helper lemmas shared by the claim theorems. -/

lemma rowNorm_eq_zero_iff {n m : ℕ} (A : Mat n m) (i : Fin n) :
    rowNorm A i = 0 ↔ ∀ j, A i j = 0 := by
  unfold rowNorm
  rw [Real.sqrt_eq_zero']
  constructor
  · intro h j
    have hs : (∑ j, (A i j) ^ 2) = 0 :=
      le_antisymm h (Finset.sum_nonneg fun j _ => sq_nonneg _)
    have h2 := (Finset.sum_eq_zero_iff_of_nonneg (fun j _ => sq_nonneg (A i j))).mp hs
      j (Finset.mem_univ j)
    exact pow_eq_zero_iff (two_ne_zero) |>.mp h2
  · intro h
    have hs : (∑ j, (A i j) ^ 2) = 0 :=
      Finset.sum_eq_zero fun j _ => by rw [h j]; ring
    rw [hs]

lemma div_sqrt_mul_div_sqrt (x y d : ℝ) (hd : 0 ≤ d) :
    x / Real.sqrt d * (y / Real.sqrt d) = x * y / d := by
  rw [div_mul_div_comm, Real.mul_self_sqrt hd]

lemma affil_counts_ge_two {m : ℕ} (nd : ℝ) (piv : Fin m → ℝ) (j : Fin m) :
    (2 : ℝ) ≤ affil_counts nd piv j := le_max_right _ _

lemma affil_sub_one_nonneg {m : ℕ} (nd : ℝ) (piv : Fin m → ℝ) (j : Fin m) :
    (0 : ℝ) ≤ affil_counts nd piv j - 1 := by
  have := affil_counts_ge_two nd piv j
  linarith

lemma log_affil_pos {m : ℕ} (nd : ℝ) (piv : Fin m → ℝ) (j : Fin m) :
    0 < Real.log (affil_counts nd piv j) := by
  have := affil_counts_ge_two nd piv j
  exact Real.log_pos (by linarith)

lemma newman_sparse_eq_dense {n m : ℕ} (A : Mat n m) (piv : Fin m → ℝ) (nd : ℝ) :
    newman_transform_sparse A piv nd = newman_transform_dense A piv nd := by
  funext i j
  unfold newman_transform_sparse newman_transform_dense
  rw [mul_one_div]

lemma adamic_adar_sparse_eq_dense {n m : ℕ} (A : Mat n m) (piv : Fin m → ℝ) (nd : ℝ) :
    adamic_adar_transform_sparse A piv nd = adamic_adar_transform_dense A piv nd := by
  funext i j
  unfold adamic_adar_transform_sparse adamic_adar_transform_dense
  rw [mul_one_div]

lemma shared_size_sparse_eq_dense {n m : ℕ} (A : Mat n m) (bc : Bool) :
    shared_size_transform_sparse A bc = shared_size_transform_dense A bc := by
  unfold shared_size_transform_sparse shared_size_transform_dense
  cases bc
  · rw [if_neg (by simp), if_neg (by simp)]
    funext i j
    rw [mul_one_div]
  · rfl

lemma newman_dot {n m : ℕ} (A : Mat n m) (piv : Fin m → ℝ) (nd : ℝ) (i k : Fin n) :
    dotProd (newman_transform_dense A piv nd) i k = newman_term_score A piv nd i k := by
  unfold dotProd newman_transform_dense newman_term_score
  exact Finset.sum_congr rfl fun j _ =>
    div_sqrt_mul_div_sqrt _ _ _ (affil_sub_one_nonneg nd piv j)

lemma adamic_adar_dot {n m : ℕ} (A : Mat n m) (piv : Fin m → ℝ) (nd : ℝ) (i k : Fin n) :
    dotProd (adamic_adar_transform_dense A piv nd) i k
      = adamic_adar_term_score A piv nd i k := by
  unfold dotProd adamic_adar_transform_dense adamic_adar_term_score
  exact Finset.sum_congr rfl fun j _ =>
    div_sqrt_mul_div_sqrt _ _ _ (le_of_lt (log_affil_pos nd piv j))

lemma shared_size_dot {n m : ℕ} (A : Mat n m) (bc : Bool) (i k : Fin n) :
    dotProd (shared_size_transform_dense A bc) i k = shared_size_term_score A bc i k := by
  unfold dotProd shared_size_transform_dense shared_size_term_score
  cases bc
  · rw [if_neg (by simp), if_neg (by simp)]
    exact Finset.sum_congr rfl fun j _ =>
      div_sqrt_mul_div_sqrt _ _ _ (Nat.cast_nonneg m)
  · rfl

lemma pi_for_denom_bounds {m : ℕ} (piv : Fin m → ℝ) (j : Fin m)
    (h0 : 0 ≤ piv j) (h1 : piv j ≤ 1) :
    0 ≤ pi_for_denom piv j ∧ pi_for_denom piv j ≤ 1 := by
  unfold pi_for_denom
  split
  · norm_num
  · exact ⟨h0, h1⟩

lemma wcDenom_arg_nonneg {m : ℕ} (piv : Fin m → ℝ) (j : Fin m)
    (h0 : 0 ≤ piv j) (h1 : piv j ≤ 1) :
    0 ≤ pi_for_denom piv j * (1 - pi_for_denom piv j) * (m : ℝ) := by
  obtain ⟨hq0, hq1⟩ := pi_for_denom_bounds piv j h0 h1
  exact mul_nonneg (mul_nonneg hq0 (by linarith)) (Nat.cast_nonneg m)

lemma wc_dot {n m : ℕ} (A : Mat n m) (piv : Fin m → ℝ) (i k : Fin n)
    (h : ∀ j, 0 ≤ piv j ∧ piv j ≤ 1) :
    dotProd (wc_transform A piv) i k = wc_term_score A piv i k := by
  unfold dotProd wc_transform wc_term_score wcDenom
  exact Finset.sum_congr rfl fun j _ =>
    div_sqrt_mul_div_sqrt _ _ _ (wcDenom_arg_nonneg piv j (h j).1 (h j).2)

lemma sw11_weight_some {p : ℝ} (h0 : 0 < p) (h1 : p ≤ 1) :
    sw11_weight p = some (Real.sqrt (Real.log (1 / p))) := if_pos ⟨h0, h1⟩

lemma log_one_div_nonneg {p : ℝ} (h0 : 0 < p) (h1 : p ≤ 1) :
    0 ≤ Real.log (1 / p) := by
  rw [one_div, Real.log_inv]
  have := Real.log_nonpos (le_of_lt h0) h1
  linarith

lemma sw11_sparse_entry {n m : ℕ} (A : Mat n m) (piv : Fin m → ℝ) (i : Fin n) (j : Fin m)
    (h0 : 0 < piv j) (h1 : piv j ≤ 1) :
    shared_weight11_transform_sparse A piv i j
      = some (A i j * Real.sqrt (Real.log (1 / piv j))) := by
  unfold shared_weight11_transform_sparse
  split
  · rename_i hz
    rw [hz, zero_mul]
  · rw [sw11_weight_some h0 h1]
    rfl

lemma sw11_dense_entry {n m : ℕ} (A : Mat n m) (piv : Fin m → ℝ) (i : Fin n) (j : Fin m)
    (h0 : 0 < piv j) (h1 : piv j ≤ 1) :
    shared_weight11_transform_dense A piv i j
      = some (A i j * Real.sqrt (Real.log (1 / piv j))) := by
  unfold shared_weight11_transform_dense
  rw [sw11_weight_some h0 h1]
  rfl

lemma dotProdOpt_of_some {n m : ℕ} (B : OMat n m) (f g : Fin m → ℝ) (i k : Fin n)
    (hf : ∀ j, B i j = some (f j)) (hg : ∀ j, B k j = some (g j)) :
    dotProdOpt B i k = some (∑ j, f j * g j) := by
  unfold dotProdOpt
  rw [if_pos]
  · exact congrArg some (Finset.sum_congr rfl fun j _ => by rw [hf j, hg j]; rfl)
  · intro j
    rw [hf j, hg j]
    exact ⟨rfl, rfl⟩

lemma dotProdOpt_none_left {n m : ℕ} (B : OMat n m) (i k : Fin n) (j0 : Fin m)
    (h : B i j0 = none) : dotProdOpt B i k = none := by
  unfold dotProdOpt
  rw [if_neg]
  intro hall
  have h2 := (hall j0).1
  rw [h] at h2
  simp at h2

lemma sw11_dot_sparse {n m : ℕ} (A : Mat n m) (piv : Fin m → ℝ) (i k : Fin n)
    (h : ∀ j, 0 < piv j ∧ piv j ≤ 1) :
    dotProdOpt (shared_weight11_transform_sparse A piv) i k
      = some (shared_weight11_term_score A piv i k) := by
  rw [dotProdOpt_of_some _ (fun j => A i j * Real.sqrt (Real.log (1 / piv j)))
      (fun j => A k j * Real.sqrt (Real.log (1 / piv j))) i k
      (fun j => sw11_sparse_entry A piv i j (h j).1 (h j).2)
      (fun j => sw11_sparse_entry A piv k j (h j).1 (h j).2)]
  unfold shared_weight11_term_score
  exact congrArg some (Finset.sum_congr rfl fun j _ => by
    rw [mul_mul_mul_comm, Real.mul_self_sqrt (log_one_div_nonneg (h j).1 (h j).2)])

lemma sw11_dot_dense {n m : ℕ} (A : Mat n m) (piv : Fin m → ℝ) (i k : Fin n)
    (h : ∀ j, 0 < piv j ∧ piv j ≤ 1) :
    dotProdOpt (shared_weight11_transform_dense A piv) i k
      = some (shared_weight11_term_score A piv i k) := by
  rw [dotProdOpt_of_some _ (fun j => A i j * Real.sqrt (Real.log (1 / piv j)))
      (fun j => A k j * Real.sqrt (Real.log (1 / piv j))) i k
      (fun j => sw11_dense_entry A piv i j (h j).1 (h j).2)
      (fun j => sw11_dense_entry A piv k j (h j).1 (h j).2)]
  unfold shared_weight11_term_score
  exact congrArg some (Finset.sum_congr rfl fun j _ => by
    rw [mul_mul_mul_comm, Real.mul_self_sqrt (log_one_div_nonneg (h j).1 (h j).2)])

lemma cosine_sparse_dot {n m : ℕ} (A : Mat n m) (i k : Fin n) :
    dotProd (cosine_transform_sparse A) i k = cosine_term_score A i k := by
  unfold dotProd cosine_transform_sparse cosine_term_score
  by_cases hi : rowNorm A i = 0
  · have hz := (rowNorm_eq_zero_iff A i).mp hi
    simp [hz]
  · by_cases hk : rowNorm A k = 0
    · have hz := (rowNorm_eq_zero_iff A k).mp hk
      simp [hz]
    · simp only [if_neg hi, if_neg hk]
      rw [Finset.sum_div]
      exact Finset.sum_congr rfl fun j _ => by ring

lemma cosine_dense_entry {n m : ℕ} (A : Mat n m) (i : Fin n) (j : Fin m)
    (hi : rowNorm A i ≠ 0) :
    cosine_transform_dense A i j = some (A i j / rowNorm A i) := by
  unfold cosine_transform_dense
  rw [if_neg hi]

lemma cosine_dense_dot {n m : ℕ} (A : Mat n m) (i k : Fin n)
    (hi : rowNorm A i ≠ 0) (hk : rowNorm A k ≠ 0) :
    dotProdOpt (cosine_transform_dense A) i k = some (cosine_term_score A i k) := by
  rw [dotProdOpt_of_some _ (fun j => A i j / rowNorm A i) (fun j => A k j / rowNorm A k)
      i k (fun j => cosine_dense_entry A i j hi) (fun j => cosine_dense_entry A k j hk)]
  unfold cosine_term_score
  exact congrArg some (by
    rw [Finset.sum_div]
    exact Finset.sum_congr rfl fun j _ => by rw [div_mul_div_comm])

lemma cosine_dense_eq_sparse {n m : ℕ} (A : Mat n m) (i : Fin n) (j : Fin m)
    (hi : rowNorm A i ≠ 0) :
    cosine_transform_dense A i j = some (cosine_transform_sparse A i j) := by
  unfold cosine_transform_dense cosine_transform_sparse
  rw [if_neg hi, if_neg hi, mul_comm, mul_one_div]

lemma stdSub_pos {n m : ℕ} (A : Mat n m) (i : Fin n) : 0 < stdSub A i := by
  unfold stdSub
  split
  · norm_num
  · rename_i h
    exact lt_of_le_of_ne (by unfold rowStd; positivity) (Ne.symm h)

lemma rowStd_zero_const {n m : ℕ} (A : Mat n m) (i : Fin n) (h : rowStd A i = 0)
    (j : Fin m) : A i j = rowMean A i := by
  have hm : 0 < (m : ℝ) := by
    have := j.pos
    exact_mod_cast this
  unfold rowStd at h
  rw [Real.sqrt_eq_zero'] at h
  have hnn : 0 ≤ (∑ j2, (A i j2 - rowMean A i) ^ 2) / (m : ℝ) :=
    div_nonneg (Finset.sum_nonneg fun j2 _ => sq_nonneg _) (le_of_lt hm)
  have hz : (∑ j2, (A i j2 - rowMean A i) ^ 2) / (m : ℝ) = 0 := le_antisymm h hnn
  have hs : (∑ j2, (A i j2 - rowMean A i) ^ 2) = 0 := by
    rcases div_eq_zero_iff.mp hz with h2 | h2
    · exact h2
    · exact absurd h2 (ne_of_gt hm)
  have h3 := (Finset.sum_eq_zero_iff_of_nonneg
    (fun j2 _ => sq_nonneg (A i j2 - rowMean A i))).mp hs j (Finset.mem_univ j)
  have h4 := pow_eq_zero_iff (two_ne_zero) |>.mp h3
  linarith [sub_eq_zero.mp h4]

lemma scaled_mean {n m : ℕ} (A : Mat n m) (i : Fin n) :
    (∑ j, scaledRow A i j) / (m : ℝ) = rowMean A i / stdSub A i := by
  unfold scaledRow rowMean
  rw [← Finset.sum_div, div_right_comm]

lemma pearson_entry {n m : ℕ} (A : Mat n m) (i : Fin n) (j : Fin m) :
    pearson_transform A i j
      = ((A i j - rowMean A i) / stdSub A i) / Real.sqrt (m : ℝ) := by
  unfold pearson_transform
  rw [scaled_mean]
  unfold scaledRow
  rw [div_sub_div_same]

lemma pearson_dot {n m : ℕ} (A : Mat n m) (i k : Fin n) :
    dotProd (pearson_transform A) i k = pearson_term_score A i k := by
  unfold dotProd pearson_term_score
  refine Finset.sum_congr rfl fun j _ => ?_
  rw [pearson_entry, pearson_entry, div_mul_div_comm,
    Real.mul_self_sqrt (Nat.cast_nonneg m), div_mul_div_comm, div_div]

/-- C1 (amended): for every transformable metric the pairwise score obtained as the
row inner product of the transformed matrix equals the term-based reference value of
the metric exactly (hence within 1e-9 relative tolerance), on both the sparse and the
dense code branch, provided the inputs are valid for the metric: 0 <= pi <= 1 for
weighted correlation, 0 < pi <= 1 for shared weight 11, and, on the dense cosine and
cosine-weights branches only, rows of nonzero (weighted) norm.  The unamended claim
fails on the dense cosine branch at a row of zero norm, see the counterexample. -/
theorem transform_dot_eq_term_scores (n m : ℕ) (A : Mat n m) (piv w : Fin m → ℝ)
    (nd : ℝ) (bc : Bool) (i k : Fin n) :
    (dotProd (newman_transform_sparse A piv nd) i k = newman_term_score A piv nd i k)
  ∧ (dotProd (newman_transform_dense A piv nd) i k = newman_term_score A piv nd i k)
  ∧ (dotProd (adamic_adar_transform_sparse A piv nd) i k
      = adamic_adar_term_score A piv nd i k)
  ∧ (dotProd (adamic_adar_transform_dense A piv nd) i k
      = adamic_adar_term_score A piv nd i k)
  ∧ (dotProd (shared_size_transform_sparse A bc) i k = shared_size_term_score A bc i k)
  ∧ (dotProd (shared_size_transform_dense A bc) i k = shared_size_term_score A bc i k)
  ∧ ((∀ j, 0 ≤ piv j ∧ piv j ≤ 1) →
      dotProd (wc_transform A piv) i k = wc_term_score A piv i k)
  ∧ ((∀ j, 0 < piv j ∧ piv j ≤ 1) →
      dotProdOpt (shared_weight11_transform_sparse A piv) i k
        = some (shared_weight11_term_score A piv i k)
      ∧ dotProdOpt (shared_weight11_transform_dense A piv) i k
        = some (shared_weight11_term_score A piv i k))
  ∧ (dotProd (cosine_transform_sparse A) i k = cosine_term_score A i k)
  ∧ (rowNorm A i ≠ 0 → rowNorm A k ≠ 0 →
      dotProdOpt (cosine_transform_dense A) i k = some (cosine_term_score A i k))
  ∧ (dotProd (cosine_weights_transform_sparse A w) i k
      = cosine_term_score (fun i2 j => A i2 j * w j) i k)
  ∧ (rowNorm (fun i2 j => A i2 j * w j) i ≠ 0
      → rowNorm (fun i2 j => A i2 j * w j) k ≠ 0
      → dotProdOpt (cosine_weights_transform_dense A w) i k
          = some (cosine_term_score (fun i2 j => A i2 j * w j) i k))
  ∧ (dotProd (pearson_transform A) i k = pearson_term_score A i k) := by
  refine ⟨?_, ?_, ?_, ?_, ?_, ?_, ?_, ?_, ?_, ?_, ?_, ?_, ?_⟩
  · rw [newman_sparse_eq_dense]
    exact newman_dot A piv nd i k
  · exact newman_dot A piv nd i k
  · rw [adamic_adar_sparse_eq_dense]
    exact adamic_adar_dot A piv nd i k
  · exact adamic_adar_dot A piv nd i k
  · rw [shared_size_sparse_eq_dense]
    exact shared_size_dot A bc i k
  · exact shared_size_dot A bc i k
  · exact wc_dot A piv i k
  · exact fun h => ⟨sw11_dot_sparse A piv i k h, sw11_dot_dense A piv i k h⟩
  · exact cosine_sparse_dot A i k
  · exact fun hi hk => cosine_dense_dot A i k hi hk
  · unfold cosine_weights_transform_sparse
    exact cosine_sparse_dot _ i k
  · intro hi hk
    unfold cosine_weights_transform_dense
    exact cosine_dense_dot _ i k hi hk
  · exact pearson_dot A i k

/-- C1 counterexample: on the dense branch, cosine applied to the matrix with rows
(0,0) and (1,1) gives a NaN score (modelled none) for the pair (0,1), because the
zero row is divided by its zero norm, while the term-based reference value of the
pair is 0; so the claimed equality fails as stated. -/
theorem cosine_dense_dot_ne_term_at_zero_row :
    dotProdOpt (cosine_transform_dense exZR) 0 1 = none
  ∧ cosine_term_score exZR 0 1 = 0
  ∧ dotProdOpt (cosine_transform_dense exZR) 0 1
      ≠ some (cosine_term_score exZR 0 1) := by
  have h : rowNorm exZR 0 = 0 := by simp [rowNorm, exZR, Fin.sum_univ_two]
  have hnone : cosine_transform_dense exZR 0 0 = none := by
    unfold cosine_transform_dense
    rw [if_pos h]
  have h1 : dotProdOpt (cosine_transform_dense exZR) 0 1 = none :=
    dotProdOpt_none_left _ 0 1 0 hnone
  have h2 : cosine_term_score exZR 0 1 = 0 := by
    unfold cosine_term_score
    have hnum : (∑ j, exZR 0 j * exZR 1 j) = 0 := by
      rw [Fin.sum_univ_two]
      norm_num [exZR]
    rw [hnum, zero_div]
  exact ⟨h1, h2, by rw [h1]; exact fun hc => Option.noConfusion hc⟩

/-- Witness for C1: the amended theorem applied to a concrete 2 by 2 matrix with the
popularity vector (1/2, 1/2), discharging every hypothesis. -/
theorem transform_dot_eq_term_scores_witness :
    dotProd (wc_transform exW exPiv) 0 1 = wc_term_score exW exPiv 0 1
  ∧ dotProdOpt (shared_weight11_transform_sparse exW exPiv) 0 1
      = some (shared_weight11_term_score exW exPiv 0 1)
  ∧ dotProdOpt (cosine_transform_dense exW) 0 1 = some (cosine_term_score exW 0 1) := by
  have h := transform_dot_eq_term_scores 2 2 exW exPiv exOnes 4 false 0 1
  obtain ⟨-, -, -, -, -, -, hwc, hsw, -, hcd, -, -, -⟩ := h
  have hpiv : ∀ j : Fin 2, 0 < exPiv j ∧ exPiv j ≤ 1 := by
    intro j
    fin_cases j <;> norm_num [exPiv]
  have hn0 : rowNorm exW 0 ≠ 0 := by
    have h1 : rowNorm exW 0 = 1 := by simp [rowNorm, exW, Fin.sum_univ_two]
    rw [h1]
    norm_num
  have hn1 : rowNorm exW 1 ≠ 0 := by
    have h1 : rowNorm exW 1 = 1 := by simp [rowNorm, exW, Fin.sum_univ_two]
    rw [h1]
    norm_num
  exact ⟨hwc (fun j => ⟨le_of_lt (hpiv j).1, (hpiv j).2⟩), (hsw hpiv).1, hcd hn0 hn1⟩

/-- C2, the code evaluated at the failing input: for the dense matrix with rows (0,0)
and (1,1), the dense cosine branch maps both entries of the all-zero row 0 to NaN
(modelled none), because the isinf guard tests sqrt of the sum of squares, which is 0
and not Inf for a zero row, so the division 0/0 goes through; the sparse branch
behaves as the claim states: the zero row maps to exact zeros and its score with the
other row is 0. -/
theorem cosine_dense_zero_row_nan :
    cosine_transform_dense exZR 0 0 = none
  ∧ cosine_transform_dense exZR 0 1 = none
  ∧ cosine_transform_sparse exZR 0 0 = 0
  ∧ cosine_transform_sparse exZR 0 1 = 0
  ∧ dotProd (cosine_transform_sparse exZR) 0 1 = 0 := by
  have h : rowNorm exZR 0 = 0 := by simp [rowNorm, exZR, Fin.sum_univ_two]
  refine ⟨?_, ?_, ?_, ?_, ?_⟩
  · unfold cosine_transform_dense
    rw [if_pos h]
  · unfold cosine_transform_dense
    rw [if_pos h]
  · unfold cosine_transform_sparse
    rw [if_pos h, zero_mul]
  · unfold cosine_transform_sparse
    rw [if_pos h, zero_mul]
  · unfold dotProd cosine_transform_sparse
    rw [Fin.sum_univ_two]
    simp [h]

/-- C3 counterexample: the sparse and dense cosine branches disagree on the matrix
with rows (0,0) and (1,1): the sparse branch maps entry (0,0) to the finite value 0,
the dense branch maps it to NaN (modelled none). -/
theorem cosine_sparse_dense_disagree :
    cosine_transform_sparse exZR 0 0 = 0
  ∧ cosine_transform_dense exZR 0 0 ≠ some (cosine_transform_sparse exZR 0 0) := by
  have h : rowNorm exZR 0 = 0 := by simp [rowNorm, exZR, Fin.sum_univ_two]
  have hs : cosine_transform_sparse exZR 0 0 = 0 := by
    unfold cosine_transform_sparse
    rw [if_pos h, zero_mul]
  have hd : cosine_transform_dense exZR 0 0 = none := by
    unfold cosine_transform_dense
    rw [if_pos h]
  exact ⟨hs, by rw [hd]; exact fun hc => Option.noConfusion hc⟩

/-- C3 (amended): the sparse and the dense branch of each two-branch transform agree
entrywise on the same logical matrix with the same parameters: unconditionally for
newman, adamic_adar and shared_size; for shared_weight11 whenever every pi_j lies in
(0, 1]; for cosine and cosine_weights on every row whose (weighted) norm is nonzero.
On a row of zero norm the dense cosine branch yields NaN while the sparse branch
yields zeros, see the counterexample. -/
theorem sparse_dense_transform_agree (n m : ℕ) (A : Mat n m) (piv w : Fin m → ℝ)
    (nd : ℝ) (bc : Bool) :
    newman_transform_sparse A piv nd = newman_transform_dense A piv nd
  ∧ adamic_adar_transform_sparse A piv nd = adamic_adar_transform_dense A piv nd
  ∧ shared_size_transform_sparse A bc = shared_size_transform_dense A bc
  ∧ ((∀ j, 0 < piv j ∧ piv j ≤ 1) →
      shared_weight11_transform_sparse A piv = shared_weight11_transform_dense A piv)
  ∧ (∀ i j, rowNorm A i ≠ 0 →
      cosine_transform_dense A i j = some (cosine_transform_sparse A i j))
  ∧ (∀ i j, rowNorm (fun i2 j2 => A i2 j2 * w j2) i ≠ 0 →
      cosine_weights_transform_dense A w i j
        = some (cosine_weights_transform_sparse A w i j)) := by
  refine ⟨newman_sparse_eq_dense A piv nd, adamic_adar_sparse_eq_dense A piv nd,
    shared_size_sparse_eq_dense A bc, ?_, ?_, ?_⟩
  · intro h
    funext i j
    rw [sw11_sparse_entry A piv i j (h j).1 (h j).2,
      sw11_dense_entry A piv i j (h j).1 (h j).2]
  · exact fun i j hi => cosine_dense_eq_sparse A i j hi
  · intro i j hi
    unfold cosine_weights_transform_dense cosine_weights_transform_sparse
    exact cosine_dense_eq_sparse _ i j hi

/-- Witness for C3: the amended theorem applied to a concrete 2 by 2 matrix,
discharging the shared_weight11 and cosine hypotheses. -/
theorem sparse_dense_transform_agree_witness :
    shared_weight11_transform_sparse exW exPiv = shared_weight11_transform_dense exW exPiv
  ∧ cosine_transform_dense exW 0 0 = some (cosine_transform_sparse exW 0 0) := by
  have h := sparse_dense_transform_agree 2 2 exW exPiv exOnes 4 false
  obtain ⟨-, -, -, hsw, hcos, -⟩ := h
  have hpiv : ∀ j : Fin 2, 0 < exPiv j ∧ exPiv j ≤ 1 := by
    intro j
    fin_cases j <;> norm_num [exPiv]
  have hn0 : rowNorm exW 0 ≠ 0 := by
    have h1 : rowNorm exW 0 = 1 := by simp [rowNorm, exW, Fin.sum_univ_two]
    rw [h1]
    norm_num
  exact ⟨hsw hpiv, hcos 0 0 hn0⟩

/-- C4 (amended): for a column j with pi_j = 0 or pi_j = 1, wc_transform substitutes
0.5 into the variance denominator, which is then strictly positive, so the column
holds no NaN or Inf; and when additionally every entry of column j equals pi_j --
which is what pi_j being 0 or 1 means when pi is the column marginal of a binary
matrix -- the transformed column is identically 0, so its contribution to every
pairwise dot-product score is exactly 0.  Without the added constancy hypothesis the
contribution can be nonzero, see the counterexample. -/
theorem wc_degenerate_column_zero (n m : ℕ) (A : Mat n m) (piv : Fin m → ℝ)
    (j : Fin m) (hdeg : piv j = 0 ∨ piv j = 1) (hconst : ∀ i, A i j = piv j) :
    pi_for_denom piv j = 1 / 2
  ∧ 0 < wcDenom piv j
  ∧ (∀ i, wc_transform A piv i j = 0)
  ∧ (∀ i k, wc_transform A piv i j * wc_transform A piv k j = 0) := by
  have hq : pi_for_denom piv j = 1 / 2 := by
    unfold pi_for_denom
    rw [if_pos hdeg]
  have hm : 0 < (m : ℝ) := by
    have := j.pos
    exact_mod_cast this
  have hden : 0 < wcDenom piv j := by
    unfold wcDenom
    rw [hq]
    apply Real.sqrt_pos.mpr
    have h4 : (1 : ℝ) / 2 * (1 - 1 / 2) * (m : ℝ) = (m : ℝ) / 4 := by ring
    rw [h4]
    linarith
  have hz : ∀ i, wc_transform A piv i j = 0 := by
    intro i
    unfold wc_transform
    rw [hconst i, sub_self, zero_div]
  exact ⟨hq, hden, hz, fun i k => by rw [hz i, zero_mul]⟩

/-- C4 counterexample: with the 1 by 1 matrix holding a single 1 and the popularity
vector holding pi_0 = 0 (so pi is not the column marginal), the transformed entry is
(1 - 0) / sqrt(0.5 * 0.5 * 1) = 2, and the contribution of the column to the score of
the pair (0, 0) is 4, not 0, refuting the claim as stated over every matrix and every
pi in [0, 1]. -/
theorem wc_degenerate_column_nonzero_cex :
    wc_transform exOne exPiZero 0 0 = 2
  ∧ wc_transform exOne exPiZero 0 0 * wc_transform exOne exPiZero 0 0 ≠ 0 := by
  have hpi : exPiZero 0 = (0 : ℝ) := by simp [exPiZero]
  have hd : wcDenom exPiZero 0 = 1 / 2 := by
    unfold wcDenom pi_for_denom
    rw [if_pos (Or.inl hpi)]
    have h14 : (1 : ℝ) / 2 * (1 - 1 / 2) * ((1 : ℕ) : ℝ) = (1 / 2) ^ 2 := by norm_num
    rw [h14, Real.sqrt_sq (by norm_num)]
  have h2 : wc_transform exOne exPiZero 0 0 = 2 := by
    unfold wc_transform
    rw [hd, hpi]
    norm_num [exOne]
  exact ⟨h2, by rw [h2]; norm_num⟩

/-- Witness for C4: the amended theorem applied to the 1 by 1 zero matrix with
pi_0 = 0, discharging both hypotheses. -/
theorem wc_degenerate_column_zero_witness :
    pi_for_denom exPiZero 0 = 1 / 2 ∧ wc_transform exZero1 exPiZero 0 0 = 0 := by
  have h := wc_degenerate_column_zero 1 1 exZero1 exPiZero 0
    (Or.inl (by simp [exPiZero]))
    (fun i => by fin_cases i; simp [exZero1, exPiZero])
  exact ⟨h.1, h.2.2.1 0⟩

/-- C5: the effective affiliation count used by newman_transform and
adamic_adar_transform is exactly max(num_docs * pi_j, 2), hence at least 2 and
exactly 2 whenever num_docs * pi_j < 2, and the divisors sqrt(affil_counts - 1) and
sqrt(log(affil_counts)) are strictly positive, so neither transform divides by zero
or takes log of 1. -/
theorem affil_counts_floor_two (n m : ℕ) (A : Mat n m) (nd : ℝ) (piv : Fin m → ℝ)
    (j : Fin m) (i : Fin n) :
    affil_counts nd piv j = max (nd * piv j) 2
  ∧ 2 ≤ affil_counts nd piv j
  ∧ (nd * piv j < 2 → affil_counts nd piv j = 2)
  ∧ 0 < Real.sqrt (affil_counts nd piv j - 1)
  ∧ 0 < Real.sqrt (Real.log (affil_counts nd piv j))
  ∧ newman_transform_dense A piv nd i j
      = A i j / Real.sqrt (affil_counts nd piv j - 1)
  ∧ adamic_adar_transform_dense A piv nd i j
      = A i j / Real.sqrt (Real.log (affil_counts nd piv j)) := by
  refine ⟨rfl, affil_counts_ge_two nd piv j, ?_, ?_, ?_, rfl, rfl⟩
  · intro h
    unfold affil_counts
    exact max_eq_right (le_of_lt h)
  · apply Real.sqrt_pos.mpr
    have := affil_counts_ge_two nd piv j
    linarith
  · exact Real.sqrt_pos.mpr (log_affil_pos nd piv j)

/-- Witness for C5: with num_docs = 1 and pi_0 = 0 the product is below 2, so the
count is floored to exactly 2, and the log divisor is still strictly positive. -/
theorem affil_counts_floor_two_witness :
    affil_counts 1 exPiZero 0 = 2
  ∧ 0 < Real.sqrt (Real.log (affil_counts 1 exPiZero 0)) := by
  have h := affil_counts_floor_two 1 1 exOne 1 exPiZero 0 0
  exact ⟨h.2.2.1 (by norm_num [exPiZero]), h.2.2.2.2.1⟩

/-- C6: under the precondition 0 < pi_j <= 1 for every j, both branches of
shared_weight11_transform multiply entry (i, j) by sqrt(log(1 / pi_j)) and yield a
finite result; at pi_j = 0 the column weight is non-finite, a precondition violation
the caller must avoid by filtering input; and a sparse input (CSR or COO) produces a
CSR output. -/
theorem shared_weight11_spec (n m : ℕ) (A : Mat n m) (piv : Fin m → ℝ)
    (h : ∀ j, 0 < piv j ∧ piv j ≤ 1) :
    (∀ i j, shared_weight11_transform_sparse A piv i j
        = some (A i j * Real.sqrt (Real.log (1 / piv j))))
  ∧ (∀ i j, shared_weight11_transform_dense A piv i j
        = some (A i j * Real.sqrt (Real.log (1 / piv j))))
  ∧ sw11_weight 0 = none
  ∧ shared_weight11_rep MatRep.csr = MatRep.csr
  ∧ shared_weight11_rep MatRep.coo = MatRep.csr := by
  have h0 : ¬(0 < (0 : ℝ) ∧ (0 : ℝ) ≤ 1) := fun hc => lt_irrefl 0 hc.1
  refine ⟨fun i j => sw11_sparse_entry A piv i j (h j).1 (h j).2,
    fun i j => sw11_dense_entry A piv i j (h j).1 (h j).2, ?_, rfl, rfl⟩
  unfold sw11_weight
  rw [if_neg h0]

/-- Witness for C6: the theorem applied to a concrete matrix with the popularity
vector (1/2, 1/2), its precondition discharged. -/
theorem shared_weight11_spec_witness :
    shared_weight11_transform_sparse exW exPiv 0 0
      = some (exW 0 0 * Real.sqrt (Real.log (1 / exPiv 0))) := by
  have hpiv : ∀ j : Fin 2, 0 < exPiv j ∧ exPiv j ≤ 1 := by
    intro j
    fin_cases j <;> norm_num [exPiv]
  exact (shared_weight11_spec 2 2 exW exPiv hpiv).1 0 0

/-- C7: pearson_transform equals, entrywise, dividing the row by its zero-guarded
population standard deviation, subtracting the resulting row mean, and dividing by
sqrt of the number of columns; the guarded deviation is strictly positive for every
row, a zero-variance row maps to an all-zero row (no Inf anywhere), and the result is
a dense matrix. -/
theorem pearson_transform_spec (n m : ℕ) (A : Mat n m) :
    (∀ i j, pearson_transform A i j
        = (A i j / stdSub A i - (∑ j2, A i j2 / stdSub A i) / (m : ℝ))
            / Real.sqrt (m : ℝ))
  ∧ (∀ i, 0 < stdSub A i)
  ∧ (∀ i, rowStd A i = 0 → ∀ j, pearson_transform A i j = 0)
  ∧ (∀ r, pearson_rep r = MatRep.dense) := by
  refine ⟨fun i j => rfl, fun i => stdSub_pos A i, ?_, fun r => rfl⟩
  intro i h j
  have hc := rowStd_zero_const A i h j
  rw [pearson_entry, hc, sub_self, zero_div, zero_div]

/-- Witness for C7: the constant row (1, 1) has zero variance and is mapped to the
zero row. -/
theorem pearson_transform_spec_witness : pearson_transform exConst 0 0 = 0 := by
  have hstd : rowStd exConst 0 = 0 := by
    unfold rowStd rowMean
    rw [Fin.sum_univ_two, Fin.sum_univ_two]
    norm_num [exConst]
  exact (pearson_transform_spec 1 2 exConst).2.2.1 0 hstd 0

/-- C8: shared_size_transform with back_compat true returns the input unchanged on
both branches, so the score of the binary rows (1,1,0,0) and (1,0,1,0) is the raw
shared-affiliation count 1; with back_compat false both branches divide every entry
by sqrt of the number of columns. -/
theorem shared_size_transform_spec (n m : ℕ) (A : Mat n m) :
    shared_size_transform_sparse A true = A
  ∧ shared_size_transform_dense A true = A
  ∧ (∀ i j, shared_size_transform_sparse A false i j = A i j / Real.sqrt (m : ℝ))
  ∧ (∀ i j, shared_size_transform_dense A false i j = A i j / Real.sqrt (m : ℝ))
  ∧ dotProd (shared_size_transform_dense exSS true) 0 1 = 1 := by
  refine ⟨rfl, rfl, ?_, ?_, ?_⟩
  · intro i j
    unfold shared_size_transform_sparse
    rw [if_neg (by simp)]
    exact mul_one_div (A i j) (Real.sqrt (m : ℝ))
  · intro i j
    unfold shared_size_transform_dense
    rw [if_neg (by simp)]
  · unfold dotProd shared_size_transform_dense
    rw [if_pos rfl, Fin.sum_univ_four]
    norm_num [exSS]

/-- C9: on the 3 by 4 binary matrix of the end-to-end scenario, the cosine score of
the pair (0, 1), computed as the dot product of the cosine-transformed rows, is
exactly 1/2, and the score of the pair (0, 2) is exactly 0. -/
theorem cosine_example_scores :
    dotProd (cosine_transform_sparse exCos) 0 1 = 1 / 2
  ∧ dotProd (cosine_transform_sparse exCos) 0 2 = 0 := by
  constructor
  · rw [cosine_sparse_dot]
    unfold cosine_term_score
    have h0 : rowNorm exCos 0 = Real.sqrt 2 := by
      simp [rowNorm, exCos, Fin.sum_univ_four]
      norm_num
    have h1 : rowNorm exCos 1 = Real.sqrt 2 := by
      simp [rowNorm, exCos, Fin.sum_univ_four]
      norm_num
    rw [h0, h1, Real.mul_self_sqrt (by norm_num), Fin.sum_univ_four]
    norm_num [exCos]
  · rw [cosine_sparse_dot]
    unfold cosine_term_score
    have hnum : (∑ j, exCos 0 j * exCos 2 j) = 0 := by
      rw [Fin.sum_univ_four]
      norm_num [exCos, Matrix.vecHead, Matrix.vecTail]
    rw [hnum, zero_div]

/-- C10 (amended): an entry that is 0 in the input is 0 in the output for both
branches of newman, adamic_adar and shared_size unconditionally, for the sparse
branch of shared_weight11 unconditionally and its dense branch when pi_j lies in
(0, 1], and for the sparse branches of cosine and cosine_weights unconditionally and
their dense branches on rows of nonzero (weighted) norm.  A zero entry in a zero-norm
row of the dense cosine branch becomes NaN instead, see the counterexample. -/
theorem transforms_preserve_zeros (n m : ℕ) (A : Mat n m) (piv w : Fin m → ℝ)
    (nd : ℝ) (bc : Bool) (i : Fin n) (j : Fin m) (hz : A i j = 0) :
    newman_transform_sparse A piv nd i j = 0
  ∧ newman_transform_dense A piv nd i j = 0
  ∧ adamic_adar_transform_sparse A piv nd i j = 0
  ∧ adamic_adar_transform_dense A piv nd i j = 0
  ∧ shared_size_transform_sparse A bc i j = 0
  ∧ shared_size_transform_dense A bc i j = 0
  ∧ shared_weight11_transform_sparse A piv i j = some 0
  ∧ ((0 < piv j ∧ piv j ≤ 1) → shared_weight11_transform_dense A piv i j = some 0)
  ∧ cosine_transform_sparse A i j = 0
  ∧ (rowNorm A i ≠ 0 → cosine_transform_dense A i j = some 0)
  ∧ cosine_weights_transform_sparse A w i j = 0
  ∧ (rowNorm (fun i2 j2 => A i2 j2 * w j2) i ≠ 0
      → cosine_weights_transform_dense A w i j = some 0) := by
  refine ⟨?_, ?_, ?_, ?_, ?_, ?_, ?_, ?_, ?_, ?_, ?_, ?_⟩
  · unfold newman_transform_sparse
    rw [hz, zero_mul]
  · unfold newman_transform_dense
    rw [hz, zero_div]
  · unfold adamic_adar_transform_sparse
    rw [hz, zero_mul]
  · unfold adamic_adar_transform_dense
    rw [hz, zero_div]
  · unfold shared_size_transform_sparse
    cases bc <;> simp [hz]
  · unfold shared_size_transform_dense
    cases bc <;> simp [hz]
  · unfold shared_weight11_transform_sparse
    rw [if_pos hz]
  · intro hp
    rw [sw11_dense_entry A piv i j hp.1 hp.2, hz, zero_mul]
  · unfold cosine_transform_sparse
    rw [hz, mul_zero]
  · intro hn
    rw [cosine_dense_entry A i j hn, hz, zero_div]
  · unfold cosine_weights_transform_sparse cosine_transform_sparse
    simp [hz]
  · intro hn
    unfold cosine_weights_transform_dense
    rw [cosine_dense_entry _ i j hn]
    simp [hz]

/-- C10 counterexample: entry (0, 0) of the matrix with rows (0,0) and (1,1) is 0 in
the input but becomes NaN, not 0, in the output of the dense cosine branch. -/
theorem cosine_dense_not_zero_preserving :
    exZR 0 0 = 0 ∧ cosine_transform_dense exZR 0 0 ≠ some 0 := by
  have h : rowNorm exZR 0 = 0 := by simp [rowNorm, exZR, Fin.sum_univ_two]
  refine ⟨by norm_num [exZR], ?_⟩
  unfold cosine_transform_dense
  rw [if_pos h]
  exact fun hc => Option.noConfusion hc

/-- Witness for C10: the amended theorem applied to the identity-like 2 by 2 matrix
at its zero entry (0, 1), discharging the hypotheses of the conditional parts. -/
theorem transforms_preserve_zeros_witness :
    newman_transform_sparse exW exPiv 4 0 1 = 0
  ∧ shared_weight11_transform_dense exW exPiv 0 1 = some 0
  ∧ cosine_transform_dense exW 0 1 = some 0 := by
  have hz : exW 0 1 = 0 := by norm_num [exW]
  have h := transforms_preserve_zeros 2 2 exW exPiv exOnes 4 false 0 1 hz
  obtain ⟨hn, -, -, -, -, -, -, hsw, -, hcd, -, -⟩ := h
  refine ⟨hn, hsw ?_, hcd ?_⟩
  · constructor <;> norm_num [exPiv]
  · have h1 : rowNorm exW 0 = 1 := by simp [rowNorm, exW, Fin.sum_univ_two]
    rw [h1]
    norm_num
